import Mathlib

/-!
Verification of the circuit-file parser in `parse_circuit_file.cpp`.

The C++ function reads a text file line by line (lines are the
newline-separated pieces produced by `getline`, so they contain no newline
characters), skips empty lines and lines starting with `/`, splits the rest
on the first `=` into a key and a value, trims spaces and tabs around the
key, and dispatches on the key, using `std::atoi` for all integer parsing.

We embed lines as `List Char`.  File access is embedded by passing
`Option (List (List Char))`: `none` stands for a path that cannot be opened
for reading, `some lines` for a readable file with the given lines.
`std::map<std::string,int>` is embedded as an association list with
insert-or-overwrite semantics (`insertEdge`), which keeps keys unique;
no claim depends on the key ordering of `std::map`.
-/

/-- Whitespace characters skipped by `std::atoi` (C locale `isspace`):
space, tab, newline, vertical tab, form feed, carriage return. -/
def isWS (c : Char) : Bool :=
  c = ' ' || c = '\t' || c = '\n' || c = Char.ofNat 11 || c = Char.ofNat 12 || c = Char.ofNat 13

/-- The digit-consuming loop of `std::atoi`: consume a maximal prefix of
decimal digits, accumulating into `acc`; stop at the first non-digit. -/
def parseDigits : List Char → Nat → Nat
  | [], acc => acc
  | c :: rest, acc =>
    if c.isDigit then parseDigits rest (10 * acc + (c.toNat - 48)) else acc

/-- `std::atoi` on the characters of a string: skip leading whitespace, read
an optional `+` or `-` sign, then a maximal prefix of decimal digits
(trailing characters are ignored); with no digits the result is 0.
Overflow is not modelled (no claim involves values near `INT_MAX`). -/
def atoi (s : List Char) : Int :=
  match s.dropWhile isWS with
  | [] => 0
  | c :: rest =>
    if c = '+' then (parseDigits rest 0 : Int)
    else if c = '-' then -((parseDigits rest 0 : Int))
    else (parseDigits (c :: rest) 0 : Int)

/-- The two `getline` calls on the `istringstream` of a line:
`getline(iss, key, '=')` and `getline(iss, value)`.  On a line with no `=`,
or with nothing after the first `=`, the second `getline` extracts no
characters and fails, so no key/value pair is produced (`none`).
Otherwise the line is split at the first `=`. -/
def splitFirstEq : List Char → Option (List Char × List Char)
  | [] => none
  | c :: rest =>
    if c = '=' then
      match rest with
      | [] => none
      | _ :: _ => some ([], rest)
    else
      match splitFirstEq rest with
      | some (k, v) => some (c :: k, v)
      | none => none

/-- Characters removed around the key: space and tab (`" \t"`). -/
def isSpaceTab (c : Char) : Bool :=
  c = ' ' || c = '\t'

/-- The two `erase` calls on `key`: remove leading and trailing spaces and
tabs. -/
def trimKey (k : List Char) : List Char :=
  ((k.dropWhile isSpaceTab).reverse.dropWhile isSpaceTab).reverse

/-- Split a list at every comma (the full split: `n` commas give `n + 1`
pieces, empty pieces included). -/
def splitAllCommas : List Char → List (List Char)
  | [] => [[]]
  | c :: rest =>
    if c = ',' then [] :: splitAllCommas rest
    else
      match splitAllCommas rest with
      | [] => [[c]]
      | p :: ps => (c :: p) :: ps

/-- The `while (getline(ss, delay, ','))` loop over `value`: split on commas.
On the empty string the first `getline` fails (no pieces); when the string
ends in a comma the final `getline` extracts nothing and fails, so the
trailing empty piece is dropped.  All other empty pieces are kept. -/
def splitCommas (s : List Char) : List (List Char) :=
  match s with
  | [] => []
  | _ =>
    let ps := splitAllCommas s
    if ps.getLast? = some [] then ps.dropLast else ps

/-- `circuit_info.edge_delays[key] = v` on a `std::map`: overwrite the value
if the key is present, insert a new entry otherwise (keys stay unique). -/
def insertEdge (m : List (List Char × Int)) (k : List Char) (v : Int) :
    List (List Char × Int) :=
  match m with
  | [] => [(k, v)]
  | (k1, v1) :: rest => if k1 = k then (k, v) :: rest else (k1, v1) :: insertEdge rest k v

/-- Lookup in the edge-delay map. -/
def lookupEdge (m : List (List Char × Int)) (k : List Char) : Option Int :=
  match m with
  | [] => none
  | (k1, v1) :: rest => if k1 = k then some v1 else lookupEdge rest k

/-- The struct filled by the parser: node count, per-node delays, named edge
delays, maximum clock cycle. -/
structure CircuitInfo where
  total_nodes : Int
  node_delays : List Int
  edge_delays : List (List Char × Int)
  max_clock_cycle : Int
deriving Repr, DecidableEq

/-- `CircuitInfo circuit_info = {0, {}, {}, 0}`. -/
def initCircuitInfo : CircuitInfo :=
  { total_nodes := 0, node_delays := [], edge_delays := [], max_clock_cycle := 0 }

/-- The dispatch on the trimmed key: `TotalNodes` and `MaxClockCycle`
overwrite their field with `atoi value`; `NodeDelays` appends the comma
pieces of `value`, each through `atoi`; any other key stores `atoi value`
under that key in `edge_delays`. -/
def dispatch (ci : CircuitInfo) (key value : List Char) : CircuitInfo :=
  if key = "TotalNodes".toList then
    { ci with total_nodes := atoi value }
  else if key = "NodeDelays".toList then
    { ci with node_delays := ci.node_delays ++ (splitCommas value).map atoi }
  else if key = "MaxClockCycle".toList then
    { ci with max_clock_cycle := atoi value }
  else
    { ci with edge_delays := insertEdge ci.edge_delays key (atoi value) }

/-- One iteration of the `while (getline(file, line))` loop: skip the line if
it is empty or starts with `/`; otherwise split it at the first `=` (skip if
that fails) and dispatch on the trimmed key. -/
def processLine (ci : CircuitInfo) (line : List Char) : CircuitInfo :=
  match line with
  | [] => ci
  | c :: _ =>
    if c = '/' then ci
    else
      match splitFirstEq line with
      | none => ci
      | some (key, value) => dispatch ci (trimKey key) value

/-- The whole scan: fold `processLine` over the lines of the file, starting
from the all-zero / empty struct. -/
def parseLines (lines : List (List Char)) : CircuitInfo :=
  lines.foldl processLine initCircuitInfo

/-- Outcome of `parse_circuit_file`: either a fully parsed `CircuitInfo`, or
the open failure (in the C++ original, `exit(EXIT_FAILURE)` after printing
to `stderr`). -/
inductive ParseResult where
  | success (ci : CircuitInfo)
  | openFailure
deriving Repr, DecidableEq

/-- `parse_circuit_file`: `none` models a path that cannot be opened for
reading; `some lines` models a readable file with the given lines. -/
def parse_circuit_file (contents : Option (List (List Char))) : ParseResult :=
  match contents with
  | none => ParseResult.openFailure
  | some lines => ParseResult.success (parseLines lines)

/-- A line that produces no key/value pair: it is empty, starts with the
comment marker `/`, or the split at the first `=` fails (no `=`, or nothing
after the first `=`). -/
def yieldsNoPair (l : List Char) : Bool :=
  match l with
  | [] => true
  | c :: _ => c = '/' || (splitFirstEq l).isNone

/-- Value of a list of decimal digit characters, most significant first. -/
def digitsToNat (ds : List Char) : Nat :=
  ds.foldl (fun a c => 10 * a + (c.toNat - 48)) 0

/-! ### Helper lemmas -/

theorem splitFirstEq_append (k v : List Char) (hk : '=' ∉ k) (hv : v ≠ []) :
    splitFirstEq (k ++ '=' :: v) = some (k, v) := by
  induction k with
  | nil =>
    cases v with
    | nil => exact absurd rfl hv
    | cons x xs => simp [splitFirstEq]
  | cons c k ih =>
    have hc : c ≠ '=' := by rintro rfl; exact hk (List.mem_cons_self _ _)
    have hk2 : '=' ∉ k := fun h => hk (List.mem_cons_of_mem c h)
    simp [splitFirstEq, hc, ih hk2]

theorem splitFirstEq_of_no_eq (l : List Char) (h : '=' ∉ l) : splitFirstEq l = none := by
  induction l with
  | nil => rfl
  | cons c rest ih =>
    have hc : c ≠ '=' := by rintro rfl; exact h (List.mem_cons_self _ _)
    have h2 : '=' ∉ rest := fun hm => h (List.mem_cons_of_mem c hm)
    simp [splitFirstEq, hc, ih h2]

theorem splitFirstEq_trailing (k : List Char) (hk : '=' ∉ k) :
    splitFirstEq (k ++ ['=']) = none := by
  induction k with
  | nil => rfl
  | cons c k ih =>
    have hc : c ≠ '=' := by rintro rfl; exact hk (List.mem_cons_self _ _)
    have hk2 : '=' ∉ k := fun h => hk (List.mem_cons_of_mem c h)
    simp [splitFirstEq, hc, ih hk2]

theorem processLine_skip (ci : CircuitInfo) (l : List Char) (h : splitFirstEq l = none) :
    processLine ci l = ci := by
  cases l with
  | nil => rfl
  | cons c rest =>
    by_cases hc : c = '/'
    · simp [processLine, hc]
    · simp [processLine, hc, h]

theorem processLine_split (ci : CircuitInfo) (k v : List Char) (hk : '=' ∉ k)
    (hv : v ≠ []) (hc : k.head? ≠ some '/') :
    processLine ci (k ++ '=' :: v) = dispatch ci (trimKey k) v := by
  have hs := splitFirstEq_append k v hk hv
  cases k with
  | nil =>
    simp only [List.nil_append] at hs ⊢
    simp [processLine, hs]
  | cons c k1 =>
    have hc2 : c ≠ '/' := by simpa using hc
    simp [processLine, hc2, List.cons_append] at hs ⊢
    simp [hs]

theorem trimKey_totalNodes : trimKey "TotalNodes".toList = "TotalNodes".toList := by decide

theorem processLine_totalNodes (ci : CircuitInfo) (v : List Char) (hv : v ≠ []) :
    processLine ci ("TotalNodes".toList ++ '=' :: v) = { ci with total_nodes := atoi v } := by
  rw [processLine_split ci _ v (by decide) hv (by decide), trimKey_totalNodes]
  unfold dispatch
  rw [if_pos rfl]

theorem trimKey_nodeDelays : trimKey "NodeDelays".toList = "NodeDelays".toList := by decide

theorem processLine_nodeDelays (ci : CircuitInfo) (v : List Char) (hv : v ≠ []) :
    processLine ci ("NodeDelays".toList ++ '=' :: v) =
      { ci with node_delays := ci.node_delays ++ (splitCommas v).map atoi } := by
  rw [processLine_split ci _ v (by decide) hv (by decide), trimKey_nodeDelays]
  unfold dispatch
  rw [if_neg (by decide), if_pos rfl]

theorem trimKey_maxClockCycle : trimKey "MaxClockCycle".toList = "MaxClockCycle".toList := by
  decide

theorem processLine_maxClockCycle (ci : CircuitInfo) (v : List Char) (hv : v ≠ []) :
    processLine ci ("MaxClockCycle".toList ++ '=' :: v) =
      { ci with max_clock_cycle := atoi v } := by
  rw [processLine_split ci _ v (by decide) hv (by decide), trimKey_maxClockCycle]
  unfold dispatch
  rw [if_neg (by decide), if_neg (by decide), if_pos rfl]

theorem processLine_edge (ci : CircuitInfo) (k v : List Char) (hk : '=' ∉ k) (hv : v ≠ [])
    (hc : k.head? ≠ some '/')
    (h1 : trimKey k ≠ "TotalNodes".toList) (h2 : trimKey k ≠ "NodeDelays".toList)
    (h3 : trimKey k ≠ "MaxClockCycle".toList) :
    processLine ci (k ++ '=' :: v) =
      { ci with edge_delays := insertEdge ci.edge_delays (trimKey k) (atoi v) } := by
  rw [processLine_split ci k v hk hv hc]
  unfold dispatch
  rw [if_neg h1, if_neg h2, if_neg h3]

theorem lookupEdge_insertEdge (m : List (List Char × Int)) (k : List Char) (v : Int) :
    lookupEdge (insertEdge m k v) k = some v := by
  induction m with
  | nil => simp [insertEdge, lookupEdge]
  | cons p rest ih =>
    obtain ⟨k1, v1⟩ := p
    by_cases h : k1 = k
    · simp [insertEdge, h, lookupEdge]
    · simp [insertEdge, h, lookupEdge, ih]

theorem mem_keys_insertEdge (m : List (List Char × Int)) (k x : List Char) (v : Int) :
    x ∈ (insertEdge m k v).map Prod.fst ↔ x = k ∨ x ∈ m.map Prod.fst := by
  induction m with
  | nil => simp [insertEdge]
  | cons p rest ih =>
    obtain ⟨k1, v1⟩ := p
    by_cases h : k1 = k
    · subst h
      simp [insertEdge]
    · simp [insertEdge, h, ih]
      tauto

theorem nodup_keys_insertEdge (m : List (List Char × Int)) (k : List Char) (v : Int)
    (h : (m.map Prod.fst).Nodup) : ((insertEdge m k v).map Prod.fst).Nodup := by
  induction m with
  | nil => simp [insertEdge]
  | cons p rest ih =>
    obtain ⟨k1, v1⟩ := p
    simp only [List.map_cons, List.nodup_cons] at h
    by_cases hk : k1 = k
    · subst hk
      simpa [insertEdge] using h
    · simp only [insertEdge, if_neg hk, List.map_cons, List.nodup_cons]
      constructor
      · intro hmem
        rcases (mem_keys_insertEdge rest k k1 v).mp hmem with h1 | h1
        · exact hk h1
        · exact h.1 h1
      · exact ih h.2

theorem nodup_keys_processLine (ci : CircuitInfo) (l : List Char)
    (h : (ci.edge_delays.map Prod.fst).Nodup) :
    (((processLine ci l).edge_delays).map Prod.fst).Nodup := by
  cases l with
  | nil => exact h
  | cons c rest =>
    by_cases hc : c = '/'
    · simpa [processLine, hc] using h
    · cases hs : splitFirstEq (c :: rest) with
      | none => simpa [processLine, hc, hs] using h
      | some kv =>
        obtain ⟨k, v⟩ := kv
        simp only [processLine, if_neg hc, hs]
        unfold dispatch
        split_ifs
        all_goals first
          | exact h
          | exact nodup_keys_insertEdge _ _ _ h

theorem nodup_keys_foldl (lines : List (List Char)) (ci : CircuitInfo)
    (h : (ci.edge_delays.map Prod.fst).Nodup) :
    (((lines.foldl processLine ci).edge_delays).map Prod.fst).Nodup := by
  induction lines generalizing ci with
  | nil => exact h
  | cons l ls ih => exact ih _ (nodup_keys_processLine ci l h)

theorem processLine_yieldsNoPair (ci : CircuitInfo) (l : List Char)
    (h : yieldsNoPair l = true) : processLine ci l = ci := by
  cases l with
  | nil => rfl
  | cons c rest =>
    simp only [yieldsNoPair, Bool.or_eq_true, decide_eq_true_eq,
      Option.isNone_iff_eq_none] at h
    rcases h with h | h
    · simp [processLine, h]
    · exact processLine_skip ci _ h

theorem foldl_yieldsNoPair (lines : List (List Char)) (ci : CircuitInfo)
    (h : ∀ l ∈ lines, yieldsNoPair l = true) : lines.foldl processLine ci = ci := by
  induction lines with
  | nil => rfl
  | cons l ls ih =>
    rw [List.foldl_cons, processLine_yieldsNoPair ci l (h l (List.mem_cons_self _ _)),
      ih (fun x hx => h x (List.mem_cons_of_mem _ hx))]

theorem parseDigits_head_not_digit (l : List Char) (acc : Nat)
    (h : ∀ c, l.head? = some c → c.isDigit = false) : parseDigits l acc = acc := by
  cases l with
  | nil => rfl
  | cons c rest => simp [parseDigits, h c rfl]

theorem parseDigits_digits_append (ds rest : List Char) (acc : Nat)
    (hds : ∀ c ∈ ds, c.isDigit = true)
    (hrest : ∀ c, rest.head? = some c → c.isDigit = false) :
    parseDigits (ds ++ rest) acc = ds.foldl (fun a c => 10 * a + (c.toNat - 48)) acc := by
  induction ds generalizing acc with
  | nil => simpa using parseDigits_head_not_digit rest acc hrest
  | cons d ds ih =>
    have hd := hds d (List.mem_cons_self _ _)
    simp only [List.cons_append, parseDigits, hd, if_true, List.foldl_cons]
    exact ih _ (fun c hc => hds c (List.mem_cons_of_mem _ hc))

theorem isWS_false_of_not_ws (c : Char) (h1 : c ≠ ' ') (h2 : c ≠ '\t') (h3 : c ≠ '\n')
    (h4 : c ≠ Char.ofNat 11) (h5 : c ≠ Char.ofNat 12) (h6 : c ≠ Char.ofNat 13) :
    isWS c = false := by
  simp [isWS, h1, h2, h3, h4, h5, h6]

theorem isWS_false_of_isDigit (c : Char) (h : c.isDigit = true) : isWS c = false := by
  apply isWS_false_of_not_ws <;> (rintro rfl; exact absurd h (by decide))

theorem dropWhile_append_all (p : Char → Bool) (ws t : List Char)
    (hws : ∀ c ∈ ws, p c = true) (ht : ∀ c, t.head? = some c → p c = false) :
    (ws ++ t).dropWhile p = t := by
  induction ws with
  | nil =>
    cases t with
    | nil => rfl
    | cons c rest => simp [List.dropWhile_cons, ht c rfl]
  | cons w ws ih =>
    simp only [List.cons_append, List.dropWhile_cons, hws w (List.mem_cons_self _ _), if_true]
    exact ih (fun c hc => hws c (List.mem_cons_of_mem _ hc))

theorem atoi_decomp (ws sgn ds rest : List Char)
    (hws : ∀ c ∈ ws, isWS c = true)
    (hsgn : sgn = [] ∨ sgn = ['+'] ∨ sgn = ['-'])
    (hds : ds ≠ []) (hd : ∀ c ∈ ds, c.isDigit = true)
    (hrest : ∀ c, rest.head? = some c → c.isDigit = false) :
    atoi (ws ++ (sgn ++ (ds ++ rest))) =
      if sgn = ['-'] then -(digitsToNat ds : Int) else (digitsToNat ds : Int) := by
  have hdrop : (ws ++ (sgn ++ (ds ++ rest))).dropWhile isWS = sgn ++ (ds ++ rest) := by
    apply dropWhile_append_all _ _ _ hws
    intro c hc
    rcases hsgn with rfl | rfl | rfl
    · cases ds with
      | nil => exact absurd rfl hds
      | cons d ds1 =>
        simp only [List.nil_append, List.cons_append, List.head?_cons,
          Option.some.injEq] at hc
        subst hc
        exact isWS_false_of_isDigit d (hd d (List.mem_cons_self _ _))
    · simp only [List.cons_append, List.head?_cons, Option.some.injEq] at hc
      subst hc
      decide
    · simp only [List.cons_append, List.head?_cons, Option.some.injEq] at hc
      subst hc
      decide
  unfold atoi
  rw [hdrop]
  rcases hsgn with rfl | rfl | rfl
  · cases ds with
    | nil => exact absurd rfl hds
    | cons d ds1 =>
      have hd0 := hd d (List.mem_cons_self _ _)
      have hplus : d ≠ '+' := by rintro rfl; exact absurd hd0 (by decide)
      have hminus : d ≠ '-' := by rintro rfl; exact absurd hd0 (by decide)
      simp only [List.nil_append, List.cons_append, if_neg hplus, if_neg hminus]
      rw [← List.cons_append, parseDigits_digits_append _ _ _ hd hrest]
      simp [digitsToNat]
  · simp only [List.cons_append, List.nil_append, if_pos rfl]
    rw [parseDigits_digits_append _ _ _ hd hrest]
    simp [digitsToNat]
  · simp only [List.cons_append, List.nil_append]
    rw [parseDigits_digits_append _ _ _ hd hrest]
    simp [digitsToNat]

theorem atoi_eq_zero_of_no_digit (s : List Char) (h : ∀ c ∈ s, c.isDigit = false) :
    atoi s = 0 := by
  have hsub : ∀ c ∈ s.dropWhile isWS, c.isDigit = false :=
    fun c hc => h c (List.Sublist.mem hc (List.dropWhile_sublist isWS))
  unfold atoi
  cases ht : s.dropWhile isWS with
  | nil => rfl
  | cons c rest =>
    have hc : c.isDigit = false := hsub c (by rw [ht]; exact List.mem_cons_self _ _)
    have hrest : ∀ x, rest.head? = some x → x.isDigit = false := by
      intro x hx
      apply hsub
      rw [ht]
      exact List.mem_cons_of_mem _ (List.mem_of_mem_head? hx)
    show (if c = '+' then (parseDigits rest 0 : Int)
        else if c = '-' then -((parseDigits rest 0 : Int))
        else (parseDigits (c :: rest) 0 : Int)) = 0
    by_cases h1 : c = '+'
    · rw [if_pos h1, parseDigits_head_not_digit rest 0 hrest]
      simp
    · rw [if_neg h1]
      by_cases h2 : c = '-'
      · rw [if_pos h2, parseDigits_head_not_digit rest 0 hrest]
        simp
      · rw [if_neg h2, parseDigits_head_not_digit (c :: rest) 0]
        · simp
        · intro x hx
          simp only [List.head?_cons, Option.some.injEq] at hx
          subst hx
          exact hc

theorem head_not_digit_of_take (l : List Char) (h : ∀ c ∈ l.take 1, c.isDigit = false) :
    ∀ c, l.head? = some c → c.isDigit = false := by
  intro c hc
  cases l with
  | nil => simp at hc
  | cons a rest =>
    have ha : a = c := by simpa using hc
    rw [← ha]
    exact h a (by simp)

/-! ### Claim theorems -/

/-- C1: for every path that cannot be opened for reading, `parse_circuit_file`
fails with the `OpenFailure` outcome (never a partially-populated
`CircuitInfo`), and for every path that can be opened it succeeds with a
parsed `CircuitInfo`. -/
theorem C1_open_failure_taxonomy :
    parse_circuit_file none = ParseResult.openFailure ∧
    ∀ lines, ∃ ci, parse_circuit_file (some lines) = ParseResult.success ci :=
  ⟨rfl, fun lines => ⟨parseLines lines, rfl⟩⟩

/-- C2: every `NodeDelays` line appends its comma-separated parsed values to
`node_delays` rather than replacing them; `NodeDelays=1,2` followed by
`NodeDelays=3` yields `[1, 2, 3]`. -/
theorem C2_nodeDelays_append :
    (∀ ci v, v ≠ [] →
      (processLine ci ("NodeDelays".toList ++ '=' :: v)).node_delays =
        ci.node_delays ++ (splitCommas v).map atoi) ∧
    (parseLines ["NodeDelays=1,2".toList, "NodeDelays=3".toList]).node_delays = [1, 2, 3] := by
  constructor
  · intro ci v hv
    rw [processLine_nodeDelays ci v hv]
  · decide

theorem C2_nodeDelays_append_witness :
    (processLine initCircuitInfo ("NodeDelays".toList ++ '=' :: "1,2".toList)).node_delays =
      initCircuitInfo.node_delays ++ (splitCommas "1,2".toList).map atoi :=
  C2_nodeDelays_append.1 initCircuitInfo "1,2".toList (by decide)

/-- C3: the value of a `NodeDelays` line is split on commas and each piece is
parsed with `atoi` in order, non-numeric pieces coercing to 0 and never
failing; `NodeDelays=1,x,3` yields `[1, 0, 3]`. -/
theorem C3_nodeDelays_zero_coercion :
    (parseLines ["NodeDelays=1,x,3".toList]).node_delays = [1, 0, 3] ∧
    (∀ ci v, v ≠ [] →
      (processLine ci ("NodeDelays".toList ++ '=' :: v)).node_delays =
        ci.node_delays ++ (splitCommas v).map atoi) ∧
    (∀ s : List Char, (∀ c ∈ s, c.isDigit = false) → atoi s = 0) := by
  refine ⟨by decide, ?_, atoi_eq_zero_of_no_digit⟩
  intro ci v hv
  rw [processLine_nodeDelays ci v hv]

theorem C3_nodeDelays_zero_coercion_witness :
    (processLine initCircuitInfo ("NodeDelays".toList ++ '=' :: "1,x,3".toList)).node_delays =
      initCircuitInfo.node_delays ++ (splitCommas "1,x,3".toList).map atoi ∧
    atoi "x".toList = 0 :=
  ⟨C3_nodeDelays_zero_coercion.2.1 initCircuitInfo "1,x,3".toList (by decide),
   C3_nodeDelays_zero_coercion.2.2 "x".toList (by decide)⟩

/-- C4: `total_nodes` and `max_clock_cycle` default to 0 and are overwritten
by every `TotalNodes` (resp. `MaxClockCycle`) line, so the last occurrence
wins; `TotalNodes=12` yields `total_nodes = 12`. -/
theorem C4_overwrite_last_wins :
    initCircuitInfo.total_nodes = 0 ∧ initCircuitInfo.max_clock_cycle = 0 ∧
    (∀ ci v, v ≠ [] →
      processLine ci ("TotalNodes".toList ++ '=' :: v) = { ci with total_nodes := atoi v }) ∧
    (∀ ci v, v ≠ [] →
      processLine ci ("MaxClockCycle".toList ++ '=' :: v) =
        { ci with max_clock_cycle := atoi v }) ∧
    (parseLines ["TotalNodes=12".toList]).total_nodes = 12 ∧
    (parseLines ["TotalNodes=5".toList, "TotalNodes=12".toList]).total_nodes = 12 ∧
    (parseLines ["MaxClockCycle=5".toList, "MaxClockCycle=9".toList]).max_clock_cycle = 9 :=
  ⟨rfl, rfl, processLine_totalNodes, processLine_maxClockCycle, by decide, by decide, by decide⟩

theorem C4_overwrite_last_wins_witness :
    processLine initCircuitInfo ("TotalNodes".toList ++ '=' :: "12".toList) =
      { initCircuitInfo with total_nodes := atoi "12".toList } ∧
    processLine initCircuitInfo ("MaxClockCycle".toList ++ '=' :: "9".toList) =
      { initCircuitInfo with max_clock_cycle := atoi "9".toList } :=
  ⟨C4_overwrite_last_wins.2.2.1 initCircuitInfo "12".toList (by decide),
   C4_overwrite_last_wins.2.2.2.1 initCircuitInfo "9".toList (by decide)⟩

/-- C5: a key/value line whose trimmed key is none of the three recognized
keys stores `atoi value` into `edge_delays` under that key, overwriting any
prior value; keys stay unique, and `A=5` then `A=7` leaves
`edge_delays["A"] = 7`. -/
theorem C5_edge_delays_last_write_wins :
    (∀ ci k v, '=' ∉ k → v ≠ [] → k.head? ≠ some '/' →
      trimKey k ≠ "TotalNodes".toList → trimKey k ≠ "NodeDelays".toList →
      trimKey k ≠ "MaxClockCycle".toList →
      processLine ci (k ++ '=' :: v) =
        { ci with edge_delays := insertEdge ci.edge_delays (trimKey k) (atoi v) }) ∧
    (∀ m k v, lookupEdge (insertEdge m k v) k = some v) ∧
    (∀ lines, (((parseLines lines).edge_delays).map Prod.fst).Nodup) ∧
    lookupEdge (parseLines ["A=5".toList, "A=7".toList]).edge_delays "A".toList = some 7 := by
  refine ⟨?_, lookupEdge_insertEdge, ?_, by decide⟩
  · intro ci k v hk hv hc h1 h2 h3
    exact processLine_edge ci k v hk hv hc h1 h2 h3
  · intro lines
    exact nodup_keys_foldl lines initCircuitInfo (by simp [initCircuitInfo])

theorem C5_edge_delays_last_write_wins_witness :
    processLine initCircuitInfo ("A".toList ++ '=' :: "5".toList) =
      { initCircuitInfo with
          edge_delays :=
            insertEdge initCircuitInfo.edge_delays (trimKey "A".toList) (atoi "5".toList) } :=
  C5_edge_delays_last_write_wins.1 initCircuitInfo "A".toList "5".toList (by decide) (by decide)
    (by decide) (by decide) (by decide) (by decide)

/-- C6 counterexample: the file `["A=5"]` contains no recognized key (its
only trimmed key `A` is none of `TotalNodes`, `NodeDelays`,
`MaxClockCycle`), yet the result is not the default `CircuitInfo`: the line
populates `edge_delays`. -/
theorem C6_counterexample :
    trimKey "A".toList ≠ "TotalNodes".toList ∧ trimKey "A".toList ≠ "NodeDelays".toList ∧
    trimKey "A".toList ≠ "MaxClockCycle".toList ∧
    (parseLines ["A=5".toList]).edge_delays = [("A".toList, 5)] ∧
    parseLines ["A=5".toList] ≠ initCircuitInfo := by decide

/-- C6 (amended): for every input file in which no line produces a key/value
pair — every line is empty, starts with `/`, has no `=`, or has nothing
after its first `=` — the parse returns the default `CircuitInfo`
(`total_nodes = 0`, `max_clock_cycle = 0`, `node_delays` and `edge_delays`
empty). -/
theorem C6_no_pairs_default :
    ∀ lines, (∀ l ∈ lines, yieldsNoPair l = true) → parseLines lines = initCircuitInfo :=
  fun lines h => foldl_yieldsNoPair lines initCircuitInfo h

theorem C6_no_pairs_default_witness :
    parseLines ["/x=1".toList, "".toList, "noequals".toList, "A=".toList] = initCircuitInfo :=
  C6_no_pairs_default _ (by decide)

/-- C7 counterexample: a line whose first character is `#` is not ignored:
`#x=1` contributes an `edge_delays` entry, so the result differs from the
default `CircuitInfo`. -/
theorem C7_counterexample :
    "#x=1".toList.head? = some '#' ∧
    (parseLines ["#x=1".toList]).edge_delays = [("#x".toList, 1)] ∧
    parseLines ["#x=1".toList] ≠ initCircuitInfo := by decide

/-- C7 (amended): `#` is not a comment marker; a line starting with `#` is
ignored only when it produces no key/value pair (no `=`, or nothing after
the first `=`), and otherwise is parsed like any other line — `#x=1` stores
`edge_delays["#x"] = 1`. -/
theorem C7_hash_not_comment :
    (∀ ci l, splitFirstEq l = none → processLine ci l = ci) ∧
    (parseLines ["#x=1".toList]).edge_delays = [("#x".toList, 1)] :=
  ⟨processLine_skip, by decide⟩

theorem C7_hash_not_comment_witness :
    processLine initCircuitInfo "# comment".toList = initCircuitInfo :=
  C7_hash_not_comment.1 initCircuitInfo "# comment".toList (by decide)

/-- C8: an empty line, a line whose first character is `/` (only the first
character is checked, so `/x=1` and `//comment` both qualify), and a line
containing no `=` are all skipped and change no field of the result. -/
theorem C8_skip_rules :
    (∀ ci, processLine ci [] = ci) ∧
    (∀ ci rest, processLine ci ('/' :: rest) = ci) ∧
    (∀ ci l, '=' ∉ l → processLine ci l = ci) ∧
    parseLines ["/x=1".toList, "//comment".toList, "".toList, "noeq".toList] =
      initCircuitInfo := by
  refine ⟨fun ci => rfl, ?_, ?_, by decide⟩
  · intro ci rest
    simp [processLine]
  · intro ci l h
    exact processLine_skip ci l (splitFirstEq_of_no_eq l h)

theorem C8_skip_rules_witness :
    processLine initCircuitInfo "noeq".toList = initCircuitInfo :=
  C8_skip_rules.2.2.1 initCircuitInfo "noeq".toList (by decide)

/-- C9 counterexample: the non-comment line `A=B=` has `=` as its last
character, yet it is not skipped: it stores `edge_delays["A"] = 0` (the
portion after the first `=` is `B=`, which `atoi` parses to 0). -/
theorem C9_counterexample :
    "A=B=".toList.getLast? = some '=' ∧ "A=B=".toList.head? ≠ some '/' ∧
    (parseLines ["A=B=".toList]).edge_delays = [("A".toList, 0)] ∧
    parseLines ["A=B=".toList] ≠ initCircuitInfo := by decide

/-- C9 (amended): every line in which nothing follows the first `=` (the
line is `k ++ "="` with no `=` in `k`, such as `A=` or `TotalNodes=`) is
skipped entirely: no field of `CircuitInfo` is changed and no `edge_delays`
entry is created. -/
theorem C9_empty_value_skipped :
    ∀ ci k, '=' ∉ k → processLine ci (k ++ ['=']) = ci :=
  fun ci k hk => processLine_skip ci _ (splitFirstEq_trailing k hk)

theorem C9_empty_value_skipped_witness :
    processLine initCircuitInfo ("A".toList ++ ['=']) = initCircuitInfo ∧
    processLine initCircuitInfo ("TotalNodes".toList ++ ['=']) = initCircuitInfo :=
  ⟨C9_empty_value_skipped initCircuitInfo "A".toList (by decide),
   C9_empty_value_skipped initCircuitInfo "TotalNodes".toList (by decide)⟩

/-- C10: all integer parsing follows `atoi` semantics: leading whitespace is
skipped, an optional sign and a maximal digit prefix are converted, trailing
non-numeric characters are ignored (` 42abc` parses to 42 at every dispatch
site), and a value without digits yields 0. -/
theorem C10_atoi_semantics :
    (∀ ws sgn ds rest : List Char,
      (∀ c ∈ ws, isWS c = true) → (sgn = [] ∨ sgn = ['+'] ∨ sgn = ['-']) →
      ds ≠ [] → (∀ c ∈ ds, c.isDigit = true) →
      (∀ c ∈ rest.take 1, c.isDigit = false) →
      atoi (ws ++ (sgn ++ (ds ++ rest))) =
        if sgn = ['-'] then -(digitsToNat ds : Int) else (digitsToNat ds : Int)) ∧
    (∀ s : List Char, (∀ c ∈ s, c.isDigit = false) → atoi s = 0) ∧
    atoi " 42abc".toList = 42 ∧
    (parseLines ["TotalNodes= 42abc".toList]).total_nodes = 42 ∧
    (parseLines ["MaxClockCycle= 42abc".toList]).max_clock_cycle = 42 ∧
    (parseLines ["NodeDelays= 42abc, 7".toList]).node_delays = [42, 7] ∧
    lookupEdge (parseLines ["E= 42abc".toList]).edge_delays "E".toList = some 42 :=
  ⟨fun ws sgn ds rest h1 h2 h3 h4 h5 =>
      atoi_decomp ws sgn ds rest h1 h2 h3 h4 (head_not_digit_of_take rest h5),
   atoi_eq_zero_of_no_digit, by decide, by decide, by decide, by decide, by decide⟩

theorem C10_atoi_semantics_witness :
    atoi (" ".toList ++ ([] ++ ("42".toList ++ "abc".toList))) =
      (if ([] : List Char) = ['-'] then -(digitsToNat "42".toList : Int)
       else (digitsToNat "42".toList : Int)) ∧
    atoi "abc".toList = 0 :=
  ⟨C10_atoi_semantics.1 " ".toList [] "42".toList "abc".toList (by decide) (by decide)
      (by decide) (by decide) (by decide),
   C10_atoi_semantics.2.1 "abc".toList (by decide)⟩
